import Mathlib

/-!
Verification of the fuzzy full-text retrieval engine core
(`SearchEngine/helper.py`, `FuzzySearchEngine/bktree.py`,
`FuzzySearchEngine/fuzzy_search.py`, `SearchEngine/index_files.py`)
against its natural-language specification.

The Python sources are shallowly embedded: pure functions become Lean
functions, dict/defaultdict state becomes explicit association lists in
insertion order, Python ints become `Int`/`Nat`, floats become `ℚ`, and
code that can raise becomes `Option`/`Except`.
-/

/-! ## Distance function (`SearchEngine/helper.py`)

`fuzzy_ratio_distance(s1, s2) = 100 - int(fuzz.ratio(s1, s2))`.
`rapidfuzz.fuzz.ratio` is the normalized Indel similarity scaled to
[0, 100]: `100 * (|s1| + |s2| - indel(s1, s2)) / (|s1| + |s2|)` where
`indel` is the insertion/deletion-only edit distance, and the similarity
of two empty strings is defined to be 100.  `int(...)` truncates the
(nonnegative) float toward zero, i.e. takes the floor.
-/

/-- Insertion/deletion-only edit distance on character lists, by the
textbook recurrence.  The `fuel` argument only drives structural
recursion (so that the function reduces in the kernel); the fuel row
`0, s, t` is unreachable whenever `fuel ≥ s.length + t.length`, which is
how `indelDist` below always calls it. -/
def indelL : Nat → List Char → List Char → Nat
  | _, [], t => t.length
  | _, s, [] => s.length
  | 0, s, t => s.length + t.length
  | fuel + 1, a :: s, b :: t =>
    if a = b then indelL fuel s t
    else 1 + min (indelL fuel s (b :: t)) (indelL fuel (a :: s) t)

/-- The Indel (LCS-based) edit distance between two strings. -/
def indelDist (s1 s2 : String) : Nat :=
  indelL (s1.data.length + s2.data.length) s1.data s2.data

/-- `fuzzy_ratio_distance` from `SearchEngine/helper.py`:
`100 - int(fuzz.ratio(s1, s2))`, with `fuzz.ratio` the Indel similarity
ratio in [0, 100] (100 on two empty strings) and `int` the floor of the
nonnegative ratio; Nat division is that floor. -/
def fuzzy_ratio_distance (s1 s2 : String) : Nat :=
  let ls := s1.length + s2.length
  if ls = 0 then 0
  else 100 - (100 * (ls - indelDist s1 s2)) / ls

theorem indelL_le : ∀ (fuel : Nat) (s t : List Char),
    indelL fuel s t ≤ s.length + t.length := by
  intro fuel
  induction fuel with
  | zero =>
    intro s t
    cases s <;> cases t <;> simp [indelL]
  | succ n ih =>
    intro s t
    cases s with
    | nil => simp [indelL]
    | cons a s =>
      cases t with
      | nil => simp [indelL]
      | cons b t =>
        simp only [indelL]
        split
        · have := ih s t
          simp only [List.length_cons]
          omega
        · have h1 := ih s (b :: t)
          have h2 := ih (a :: s) t
          simp only [List.length_cons] at h1 h2 ⊢
          omega

theorem indelDist_le (s1 s2 : String) :
    indelDist s1 s2 ≤ s1.length + s2.length :=
  indelL_le (s1.data.length + s2.data.length) s1.data s2.data

/-- C1 (counterexample): the claim pins `d("kawa", "kava") = 12`, but the
code returns `25`: the Indel distance between "kawa" and "kava" is 2
(a substitution costs an insertion plus a deletion), so the similarity
ratio is `100·(4+4−2)/(4+4) = 75` and the distance is `100 − 75 = 25`. -/
theorem fuzzy_ratio_distance_kawa_ne_12 :
    fuzzy_ratio_distance "kawa" "kava" ≠ 12 := by decide

/-- C1 (amended): `fuzzy_ratio_distance s1 s2` equals
`100 − ⌊100 · (|s1| + |s2| − indel(s1,s2)) / (|s1| + |s2|)⌋` (and `0`
when both strings are empty), where `indel` is the insertion/deletion
edit distance — the similarity is truncated, not rounded, and the edit
distance is the Indel distance, not unit-substitution Levenshtein; in
particular `d("kawa", "kava") = 25`. -/
theorem fuzzy_ratio_distance_eq_floor_formula :
    (∀ s1 s2 : String,
      fuzzy_ratio_distance s1 s2 =
        if s1.length + s2.length = 0 then 0
        else 100 - ⌊(100 * (((s1.length + s2.length : ℕ) : ℚ) -
          (indelDist s1 s2 : ℚ))) / ((s1.length + s2.length : ℕ) : ℚ)⌋₊)
    ∧ fuzzy_ratio_distance "kawa" "kava" = 25 := by
  constructor
  · intro s1 s2
    by_cases h : s1.length + s2.length = 0
    · simp [fuzzy_ratio_distance, h]
    · have hle := indelDist_le s1 s2
      have hcast : (100 * (((s1.length + s2.length : ℕ) : ℚ) - (indelDist s1 s2 : ℚ))) =
          ((100 * (s1.length + s2.length - indelDist s1 s2) : ℕ) : ℚ) := by
        push_cast [Nat.cast_sub hle]
        ring
      simp only [fuzzy_ratio_distance, h, if_false]
      rw [hcast, Nat.floor_div_nat, Nat.floor_natCast]
  · decide

/-! ## BK-tree (`FuzzySearchEngine/bktree.py`)

A node is the Python pair `(item, children)` where `children` is a dict
from nonzero distance to child node, kept in insertion order.  The dict
is embedded as the insertion-ordered key/child sequence `BKChildren`.
`BKTree.tree` is `Option BKNode` (`None` for the empty tree).
-/

mutual
inductive BKNode : Type where
  | mk (word : String) (children : BKChildren)
  deriving DecidableEq
inductive BKChildren : Type where
  | nil
  | cons (d : Nat) (c : BKNode) (rest : BKChildren)
  deriving DecidableEq
end

namespace BKTree

/-! `BKTree.add`'s walk from a node: compute `distance = d(item, parent)`;
stop on 0 (duplicate); descend into `children[distance]` when present,
otherwise install `(item, {})` there (a fresh dict key is appended at the
end, matching Python dict insertion order). -/
mutual
def addNode (item : String) : BKNode → BKNode
  | .mk parent children =>
    let distance := fuzzy_ratio_distance item parent
    if distance = 0 then .mk parent children
    else .mk parent (addChildren item distance children)
def addChildren (item : String) (distance : Nat) : BKChildren → BKChildren
  | .nil => .cons distance (.mk item .nil) .nil
  | .cons d c rest =>
    if d = distance then .cons d (addNode item c) rest
    else .cons d c (addChildren item distance rest)
end

/-- `BKTree.add`: install as root when the tree is empty, else walk. -/
def add (tree : Option BKNode) (item : String) : Option BKNode :=
  match tree with
  | none => some (.mk item .nil)
  | some root => some (addNode item root)

/-- Adding a list of words to an initially empty tree, in order. -/
def addAll (ws : List String) : Option BKNode := ws.foldl add none

mutual
def nodeSize : BKNode → Nat
  | .mk _ cs => 1 + childrenSize cs
def childrenSize : BKChildren → Nat
  | .nil => 0
  | .cons _ c rest => nodeSize c + childrenSize rest
end

/-! All words stored in a node's subtree (the node's own word first). -/
mutual
def nodeWords : BKNode → List String
  | .mk w cs => w :: childrenWords cs
def childrenWords : BKChildren → List String
  | .nil => []
  | .cons _ c rest => nodeWords c ++ childrenWords rest
end

/-- The generator `(c for d, c in children.items() if lower <= d <= upper)`
that `find` feeds to `candidates.extend`. -/
def childrenInRange (lower upper : Int) : BKChildren → List BKNode
  | .nil => []
  | .cons d c rest =>
    if lower ≤ (d : Int) ∧ (d : Int) ≤ upper then c :: childrenInRange lower upper rest
    else childrenInRange lower upper rest

def queueSize (q : List BKNode) : Nat := (q.map nodeSize).sum

theorem queueSize_childrenInRange (lower upper : Int) :
    ∀ cs : BKChildren, queueSize (childrenInRange lower upper cs) ≤ childrenSize cs
  | .nil => by simp [childrenInRange, queueSize]
  | .cons d c rest => by
    have ih := queueSize_childrenInRange lower upper rest
    simp only [childrenInRange, childrenSize]
    split
    · simp only [queueSize, List.map_cons, List.sum_cons]
      simp only [queueSize] at ih
      omega
    · simp only [queueSize] at ih ⊢
      omega

/-- The `while candidates:` loop of `BKTree.find`: pop the queue head,
emit `(distance, candidate)` when `distance ≤ tolerance` (bumping
`count`), break when `count == k`, else extend the queue with the
children whose keys lie in `[distance − tolerance, distance + tolerance]`. -/
def findLoop (item : String) (tolerance k : Int) :
    List BKNode → Int → List (Int × String) → List (Int × String)
  | [], _, found => found
  | .mk candidate children :: rest, count, found =>
    let distance : Int := (fuzzy_ratio_distance candidate item : Int)
    let found' := if distance ≤ tolerance then found ++ [(distance, candidate)] else found
    let count' := if distance ≤ tolerance then count + 1 else count
    if count' = k then found'
    else
      findLoop item tolerance k
        (rest ++ childrenInRange (distance - tolerance) (distance + tolerance) children)
        count' found'
termination_by q _ _ => queueSize q
decreasing_by
  simp only [queueSize, List.map_append, List.sum_append, List.map_cons, List.sum_cons,
    nodeSize]
  have := queueSize_childrenInRange
    ((fuzzy_ratio_distance candidate item : Int) - tolerance)
    ((fuzzy_ratio_distance candidate item : Int) + tolerance) children
  simp only [queueSize] at this
  omega

end BKTree

/-- Stable insertion step: place `x` after every element `y` with
`lt y x` and before the first other one.  `pySort` below is therefore a
stable ascending sort, extensionally equal to Python's stable
`list.sort`/`sorted` for the same strict comparison. -/
def pyInsert (lt : α → α → Bool) (x : α) : List α → List α
  | [] => [x]
  | y :: ys => if lt y x then y :: pyInsert lt x ys else x :: y :: ys

/-- Stable ascending sort by the strict comparison `lt`. -/
def pySort (lt : α → α → Bool) (l : List α) : List α := l.foldr (pyInsert lt) []

namespace BKTree

/-- The sort key `itemgetter(0)`: compare result pairs by distance. -/
def distLt (a b : Int × String) : Bool := a.1 < b.1

/-- `BKTree.find(item, tolerance, k)`: `[]` on the empty tree; otherwise
seed `found = [(0, item)]`, return it unsorted when `len(item) <= 3`,
else run the queue loop from the root and sort by distance. -/
def find (tree : Option BKNode) (item : String) (tolerance : Int) (k : Int) :
    List (Int × String) :=
  match tree with
  | none => []
  | some root =>
    let found : List (Int × String) := [(0, item)]
    if item.length ≤ 3 then found
    else pySort distLt (findLoop item tolerance k [root] 0 found)

end BKTree

-- Generic facts about `pyInsert`/`pySort`.

theorem mem_pyInsert (lt : α → α → Bool) (x : α) :
    ∀ (l : List α) (a : α), a ∈ pyInsert lt x l ↔ a = x ∨ a ∈ l
  | [], a => by simp [pyInsert]
  | y :: ys, a => by
    simp only [pyInsert]
    split
    · simp only [List.mem_cons, mem_pyInsert lt x ys a]
      tauto
    · simp only [List.mem_cons]

theorem mem_pySort (lt : α → α → Bool) (l : List α) (a : α) :
    a ∈ pySort lt l ↔ a ∈ l := by
  induction l with
  | nil => simp [pySort]
  | cons y ys ih =>
    simp only [pySort, List.foldr_cons] at ih ⊢
    rw [mem_pyInsert, List.mem_cons, ih]

theorem length_pyInsert (lt : α → α → Bool) (x : α) :
    ∀ l : List α, (pyInsert lt x l).length = l.length + 1
  | [] => by simp [pyInsert]
  | y :: ys => by
    simp only [pyInsert]
    split
    · simp [length_pyInsert lt x ys]
    · simp

theorem length_pySort (lt : α → α → Bool) (l : List α) :
    (pySort lt l).length = l.length := by
  induction l with
  | nil => rfl
  | cons y ys ih =>
    simp only [pySort, List.foldr_cons] at ih ⊢
    rw [length_pyInsert]
    simp [ih]

-- Sortedness of `pySort distLt` results (ascending by distance).

theorem sorted_pyInsert (x : Int × String) :
    ∀ l : List (Int × String), l.Pairwise (fun a b => a.1 ≤ b.1) →
      (pyInsert BKTree.distLt x l).Pairwise (fun a b => a.1 ≤ b.1)
  | [], _ => by simp [pyInsert]
  | y :: ys, h => by
    rcases List.pairwise_cons.1 h with ⟨hy, hys⟩
    simp only [pyInsert]
    split
    · rename_i hlt
      have hyx : y.1 ≤ x.1 := by
        have := of_decide_eq_true hlt
        simp only [BKTree.distLt] at this
        omega
      refine List.pairwise_cons.2 ⟨?_, sorted_pyInsert x ys hys⟩
      intro z hz
      rcases (mem_pyInsert _ x ys z).1 hz with rfl | hzys
      · exact hyx
      · exact hy z hzys
    · rename_i hnlt
      have hxy : x.1 ≤ y.1 := by
        simp only [BKTree.distLt, decide_eq_true_eq] at hnlt
        omega
      refine List.pairwise_cons.2 ⟨?_, h⟩
      intro z hz
      rcases List.mem_cons.1 hz with rfl | hzys
      · exact hxy
      · exact le_trans hxy (hy z hzys)

theorem sorted_pySort (l : List (Int × String)) :
    (pySort BKTree.distLt l).Pairwise (fun a b => a.1 ≤ b.1) := by
  induction l with
  | nil => simp [pySort]
  | cons y ys ih =>
    simp only [pySort, List.foldr_cons] at ih ⊢
    exact sorted_pyInsert y _ ih

namespace BKTree

-- Invariants of the `find` queue loop.

theorem findLoop_mem (item : String) (tolerance k : Int) :
    ∀ (q : List BKNode) (count : Int) (found : List (Int × String)),
      ∀ e ∈ found, e ∈ findLoop item tolerance k q count found := by
  intro q count found
  induction q, count, found using findLoop.induct item tolerance k with
  | case1 count found =>
    intro e he
    simpa [findLoop] using he
  | case2 w cs rest count found dist count' hk =>
    intro e he
    unfold count' dist at hk
    simp only [dite_eq_ite] at hk
    simp only [findLoop]
    rw [if_pos hk]
    split <;> simp [he]
  | case3 w cs rest count found dist found' count' hne ih =>
    intro e he
    unfold count' dist at hne
    simp only [dite_eq_ite] at hne
    unfold found' count' dist at ih
    simp only [dite_eq_ite] at ih
    simp only [findLoop]
    rw [if_neg hne]
    apply ih
    split <;> simp [he]

theorem findLoop_le_tol (item : String) (tolerance k : Int) :
    ∀ (q : List BKNode) (count : Int) (found : List (Int × String)),
      (∀ e ∈ found, e.1 ≤ tolerance) →
      ∀ e ∈ findLoop item tolerance k q count found, e.1 ≤ tolerance := by
  intro q count found
  induction q, count, found using findLoop.induct item tolerance k with
  | case1 count found =>
    intro hf e he
    simp only [findLoop] at he
    exact hf e he
  | case2 w cs rest count found dist count' hk =>
    intro hf e he
    unfold count' dist at hk
    simp only [dite_eq_ite] at hk
    simp only [findLoop] at he
    rw [if_pos hk] at he
    split at he
    · rcases List.mem_append.1 he with h | h
      · exact hf e h
      · rename_i hd
        simp only [List.mem_singleton] at h
        subst h
        exact hd
    · exact hf e he
  | case3 w cs rest count found dist found' count' hne ih =>
    intro hf e he
    unfold count' dist at hne
    simp only [dite_eq_ite] at hne
    unfold found' count' dist at ih
    simp only [dite_eq_ite] at ih
    simp only [findLoop] at he
    rw [if_neg hne] at he
    refine ih ?_ e he
    intro e' he'
    split at he'
    · rcases List.mem_append.1 he' with h | h
      · exact hf e' h
      · rename_i hd
        simp only [List.mem_singleton] at h
        subst h
        exact hd
    · exact hf e' he'

theorem findLoop_length (item : String) (tolerance k : Int) :
    ∀ (q : List BKNode) (count : Int) (found : List (Int × String)),
      count < k → (found.length : Int) = count + 1 →
      ((findLoop item tolerance k q count found).length : Int) ≤ k + 1 := by
  intro q count found
  induction q, count, found using findLoop.induct item tolerance k with
  | case1 count found =>
    intro hck hlen
    simp only [findLoop]
    omega
  | case2 w cs rest count found dist count' hk =>
    intro hck hlen
    unfold count' dist at hk
    simp only [dite_eq_ite] at hk
    simp only [findLoop]
    rw [if_pos hk]
    split at hk <;> split <;> simp_all
  | case3 w cs rest count found dist found' count' hne ih =>
    intro hck hlen
    unfold count' dist at hne
    simp only [dite_eq_ite] at hne
    unfold found' count' dist at ih
    simp only [dite_eq_ite] at ih
    simp only [findLoop]
    rw [if_neg hne]
    apply ih
    · split at hne <;> omega
    · split <;> simp_all

end BKTree

/-- C2 (counterexample): on the empty tree `find` returns `[]` for every
probe, including short ones — `self.tree is None` is checked before the
short-probe shortcut, so a short probe on an empty tree does not return
`[(0, probe)]` as the claim states for "any contents, including the
empty tree". -/
theorem find_empty_tree_short_probe_ne :
    BKTree.find none "ab" 5 (-1) ≠ [((0 : Int), "ab")] := by decide

/-- C2 (amended): the short-probe policy holds on every NON-empty tree:
if `len(probe) ≤ 3` then `find(probe, τ, k)` returns exactly
`[(0, probe)]` without traversing; on the empty tree `find` returns `[]`
for every probe, short or not. -/
theorem find_short_probe :
    (∀ (root : BKNode) (item : String) (tolerance k : Int), item.length ≤ 3 →
      BKTree.find (some root) item tolerance k = [((0 : Int), item)])
    ∧ (∀ (item : String) (tolerance k : Int), BKTree.find none item tolerance k = []) := by
  constructor
  · intro root item tolerance k h
    simp [BKTree.find, h]
  · intro item tolerance k
    rfl

/-- C2 (witness). -/
theorem find_short_probe_witness :
    "ab".length ≤ 3 ∧
      BKTree.find (some (.mk "tree" .nil)) "ab" 7 (-1) = [((0 : Int), "ab")] :=
  ⟨by decide, find_short_probe.1 (.mk "tree" .nil) "ab" 7 (-1) (by decide)⟩

/-- C10: for every non-empty tree and every probe, tolerance and `k`, the
pair `(0, probe)` is in the result of `find` — the seed `found = [(0,
item)]` is emitted whether or not the probe was ever added to the tree. -/
theorem find_contains_probe (root : BKNode) (item : String) (tolerance k : Int) :
    ((0 : Int), item) ∈ BKTree.find (some root) item tolerance k := by
  simp only [BKTree.find]
  split
  · simp
  · rw [mem_pySort]
    exact BKTree.findLoop_mem item tolerance k [root] 0 [((0 : Int), item)] _ (by simp)

/-- C4 (counterexample): `find` can return `k + 1` pairs, one more than
the claim's "at most `k` pairs": the seeded `(0, probe)` does not count
toward `k`, so `find` with probe "abcd", τ = 20, k = 1 on the tree holding just
"abcd" returns both the seed and the emitted root, 2 > k = 1. -/
theorem find_k_bound_violated :
    ¬ ((BKTree.find (BKTree.addAll ["abcd"]) "abcd" 20 1).length ≤ 1) := by
  have ht : BKTree.addAll ["abcd"] = some (.mk "abcd" .nil) := by decide
  have h0 : fuzzy_ratio_distance "abcd" "abcd" = 0 := by decide
  rw [ht]
  simp only [BKTree.find]
  rw [if_neg (by decide : ¬ ("abcd".length ≤ 3))]
  have hloop : BKTree.findLoop "abcd" 20 1 [.mk "abcd" .nil] 0 [((0 : Int), "abcd")] =
      [((0 : Int), "abcd"), ((0 : Int), "abcd")] := by
    simp [BKTree.findLoop, h0]
  rw [hloop]
  decide

/-- C4 (amended): `find(probe, τ, k)` returns pairs sorted by ascending
distance; when `τ ≥ 0` every returned pair has distance ≤ τ; and when
`k ≥ 1` at most `k + 1` pairs are returned (the seeded `(0, probe)` plus
at most `k` traversal emissions — not "at most `k`" as claimed).
`k = −1` imposes no limit. -/
theorem find_bounds (tree : Option BKNode) (item : String) (tolerance k : Int) :
    (0 ≤ tolerance → ∀ e ∈ BKTree.find tree item tolerance k, e.1 ≤ tolerance)
    ∧ (1 ≤ k → ((BKTree.find tree item tolerance k).length : Int) ≤ k + 1)
    ∧ (BKTree.find tree item tolerance k).Pairwise (fun a b => a.1 ≤ b.1) := by
  match tree with
  | none =>
    refine ⟨by simp [BKTree.find], ?_, by simp [BKTree.find]⟩
    simp only [BKTree.find]
    intro
    simp only [List.length_nil, Nat.cast_zero]
    omega
  | some root =>
    simp only [BKTree.find]
    split
    · refine ⟨by simp, ?_, by simp⟩
      intro
      simp only [List.length_singleton, Nat.cast_one]
      omega
    · refine ⟨?_, ?_, ?_⟩
      · intro htol e he
        rw [mem_pySort] at he
        refine BKTree.findLoop_le_tol item tolerance k [root] 0 [((0 : Int), item)] ?_ e he
        intro e' he'
        simp only [List.mem_singleton] at he'
        subst he'
        exact htol
      · intro hk
        rw [length_pySort]
        exact BKTree.findLoop_length item tolerance k [root] 0 [((0 : Int), item)]
          (by omega) (by simp)
      · exact sorted_pySort _

/-- C4 (witness). -/
theorem find_bounds_witness :
    ((0 : Int) ≤ 20 ∧ (1 : Int) ≤ 2) ∧
      ((∀ e ∈ BKTree.find (BKTree.addAll ["abcd"]) "abcd" 20 2, e.1 ≤ 20)
      ∧ ((BKTree.find (BKTree.addAll ["abcd"]) "abcd" 20 2).length : Int) ≤ 2 + 1) :=
  ⟨⟨by norm_num, by norm_num⟩,
    (find_bounds (BKTree.addAll ["abcd"]) "abcd" 20 2).1 (by norm_num),
    (find_bounds (BKTree.addAll ["abcd"]) "abcd" 20 2).2.1 (by norm_num)⟩

namespace BKTree

theorem mem_childrenInRange_words (lower upper : Int) :
    ∀ (cs : BKChildren) (c : BKNode), c ∈ childrenInRange lower upper cs →
      ∀ x ∈ nodeWords c, x ∈ childrenWords cs
  | .nil, c => by simp [childrenInRange]
  | .cons d c0 rest, c => by
    intro hc x hx
    simp only [childrenInRange] at hc
    simp only [childrenWords, List.mem_append]
    split at hc
    · rcases List.mem_cons.1 hc with rfl | hcr
      · exact Or.inl hx
      · exact Or.inr (mem_childrenInRange_words lower upper rest c hcr x hx)
    · exact Or.inr (mem_childrenInRange_words lower upper rest c hc x hx)

mutual
theorem mem_nodeWords_addNode (item : String) :
    ∀ (t : BKNode) (x : String), x ∈ nodeWords (addNode item t) →
      x = item ∨ x ∈ nodeWords t
  | .mk parent children, x => by
    intro hx
    simp only [addNode] at hx
    split at hx
    · exact Or.inr hx
    · simp only [nodeWords, List.mem_cons] at hx ⊢
      rcases hx with rfl | hx
      · exact Or.inr (Or.inl rfl)
      · rcases mem_childrenWords_addChildren item _ children x hx with h | h
        · exact Or.inl h
        · exact Or.inr (Or.inr h)
theorem mem_childrenWords_addChildren (item : String) :
    ∀ (distance : Nat) (cs : BKChildren) (x : String),
      x ∈ childrenWords (addChildren item distance cs) →
      x = item ∨ x ∈ childrenWords cs
  | distance, .nil, x => by
    intro hx
    simp only [addChildren, childrenWords, nodeWords, List.append_nil,
      List.mem_cons, List.not_mem_nil, or_false] at hx
    exact Or.inl hx
  | distance, .cons d c rest, x => by
    intro hx
    simp only [addChildren] at hx
    split at hx
    · simp only [childrenWords, List.mem_append] at hx ⊢
      rcases hx with hx | hx
      · rcases mem_nodeWords_addNode item c x hx with h | h
        · exact Or.inl h
        · exact Or.inr (Or.inl h)
      · exact Or.inr (Or.inr hx)
    · simp only [childrenWords, List.mem_append] at hx ⊢
      rcases hx with hx | hx
      · exact Or.inr (Or.inl hx)
      · rcases mem_childrenWords_addChildren item distance rest x hx with h | h
        · exact Or.inl h
        · exact Or.inr (Or.inr h)
end

theorem mem_nodeWords_foldl_add :
    ∀ (ws : List String) (t : Option BKNode) (root : BKNode),
      ws.foldl add t = some root → ∀ x ∈ nodeWords root,
        x ∈ ws ∨ ∃ r0, t = some r0 ∧ x ∈ nodeWords r0 := by
  intro ws
  induction ws with
  | nil =>
    intro t root h x hx
    simp only [List.foldl_nil] at h
    exact Or.inr ⟨root, h, hx⟩
  | cons w ws ih =>
    intro t root h x hx
    simp only [List.foldl_cons] at h
    rcases ih (add t w) root h x hx with hws | ⟨r0, hr0, hxr0⟩
    · exact Or.inl (List.mem_cons_of_mem w hws)
    · match t, hr0 with
      | none, hr0 =>
        simp only [add] at hr0
        cases hr0
        simp only [nodeWords, childrenWords, List.mem_singleton] at hxr0
        exact Or.inl (hxr0 ▸ List.mem_cons_self w ws)
      | some r, hr0 =>
        simp only [add, Option.some.injEq] at hr0
        subst hr0
        rcases mem_nodeWords_addNode w r x hxr0 with rfl | hxr
        · exact Or.inl (List.mem_cons_self x ws)
        · exact Or.inr ⟨r, rfl, hxr⟩

theorem mem_nodeWords_addAll (ws : List String) (root : BKNode)
    (h : addAll ws = some root) : ∀ x ∈ nodeWords root, x ∈ ws := by
  intro x hx
  rcases mem_nodeWords_foldl_add ws none root h x hx with h | ⟨r0, hr0, _⟩
  · exact h
  · cases hr0

theorem findLoop_entries (item : String) (tolerance k : Int) (S : List String) :
    ∀ (q : List BKNode) (count : Int) (found : List (Int × String)),
      (∀ n ∈ q, ∀ x ∈ nodeWords n, x ∈ S) →
      (∀ e ∈ found, e = ((0 : Int), item) ∨
        (e.2 ∈ S ∧ e.1 = (fuzzy_ratio_distance e.2 item : Int) ∧ e.1 ≤ tolerance)) →
      ∀ e ∈ findLoop item tolerance k q count found,
        e = ((0 : Int), item) ∨
          (e.2 ∈ S ∧ e.1 = (fuzzy_ratio_distance e.2 item : Int) ∧ e.1 ≤ tolerance) := by
  intro q count found
  induction q, count, found using findLoop.induct item tolerance k with
  | case1 count found =>
    intro _ hf e he
    simp only [findLoop] at he
    exact hf e he
  | case2 w cs rest count found dist count' hk =>
    intro hq hf e he
    unfold count' dist at hk
    simp only [dite_eq_ite] at hk
    simp only [findLoop] at he
    rw [if_pos hk] at he
    split at he
    · rcases List.mem_append.1 he with h | h
      · exact hf e h
      · rename_i hd
        simp only [List.mem_singleton] at h
        subst h
        refine Or.inr ⟨?_, rfl, hd⟩
        exact hq _ (List.mem_cons_self _ _) w (by simp [nodeWords])
    · exact hf e he
  | case3 w cs rest count found dist found' count' hne ih =>
    intro hq hf e he
    unfold count' dist at hne
    simp only [dite_eq_ite] at hne
    unfold found' count' dist at ih
    simp only [dite_eq_ite] at ih
    simp only [findLoop] at he
    rw [if_neg hne] at he
    refine ih ?_ ?_ e he
    · intro n hn x hx
      rcases List.mem_append.1 hn with hn | hn
      · exact hq n (List.mem_cons_of_mem _ hn) x hx
      · have hw := mem_childrenInRange_words _ _ cs n hn x hx
        refine hq _ (List.mem_cons_self _ _) x ?_
        simp [nodeWords, hw]
    · intro e' he'
      split at he'
      · rcases List.mem_append.1 he' with h | h
        · exact hf e' h
        · rename_i hd
          simp only [List.mem_singleton] at h
          subst h
          refine Or.inr ⟨?_, rfl, hd⟩
          exact hq _ (List.mem_cons_self _ _) w (by simp [nodeWords])
      · exact hf e' he'

end BKTree

/-- C3 (counterexample): both directions of the claim fail on the tree
built by adding "aaaa" then "abbbbbb".  For probe "cbbbbbb" with τ = 15
and k = −1, `find` returns only the seeded `(0, "cbbbbbb")` — a word
never added — while "abbbbbb" has distance 15 ≤ τ but is pruned away
(the distance lacks the triangle inequality: root distance 100, child
key 82, and 82 < 100 − 15). -/
theorem find_completeness_violated :
    BKTree.find (BKTree.addAll ["aaaa", "abbbbbb"]) "cbbbbbb" 15 (-1) =
      [((0 : Int), "cbbbbbb")]
    ∧ (fuzzy_ratio_distance "abbbbbb" "cbbbbbb" : Int) ≤ 15
    ∧ "abbbbbb" ≠ "cbbbbbb"
    ∧ "cbbbbbb" ∉ ["aaaa", "abbbbbb"] := by
  refine ⟨?_, by decide, by decide, by decide⟩
  have ht : BKTree.addAll ["aaaa", "abbbbbb"] =
      some (.mk "aaaa" (.cons 82 (.mk "abbbbbb" .nil) .nil)) := by decide
  have hda : fuzzy_ratio_distance "aaaa" "cbbbbbb" = 100 := by decide
  rw [ht]
  simp only [BKTree.find]
  rw [if_neg (by decide : ¬ ("cbbbbbb".length ≤ 3))]
  have hloop : BKTree.findLoop "cbbbbbb" 15 (-1)
      [.mk "aaaa" (.cons 82 (.mk "abbbbbb" .nil) .nil)] 0 [((0 : Int), "cbbbbbb")] =
      [((0 : Int), "cbbbbbb")] := by
    simp [BKTree.findLoop, hda, BKTree.childrenInRange]
  rw [hloop]
  rfl

/-- C3 (amended): only the soundness half survives, weakened by the
seeded probe pair: every pair returned by `find` on a tree built from
added words `ws` is either `(0, probe)` or `(d(w, probe), w)` for an
added word `w` with distance ≤ τ.  Completeness fails in general (see
the counterexample): the pruning assumes a triangle inequality the
distance function does not satisfy, and short probes skip traversal. -/
theorem find_sound (ws : List String) (item : String) (tolerance k : Int) :
    ∀ e ∈ BKTree.find (BKTree.addAll ws) item tolerance k,
      e = ((0 : Int), item) ∨
        (e.2 ∈ ws ∧ e.1 = (fuzzy_ratio_distance e.2 item : Int) ∧ e.1 ≤ tolerance) := by
  intro e he
  match h : BKTree.addAll ws with
  | none =>
    rw [h] at he
    simp [BKTree.find] at he
  | some root =>
    rw [h] at he
    simp only [BKTree.find] at he
    split at he
    · simp only [List.mem_singleton] at he
      exact Or.inl he
    · rw [mem_pySort] at he
      refine BKTree.findLoop_entries item tolerance k ws [root] 0 [((0 : Int), item)]
        ?_ ?_ e he
      · intro n hn x hx
        simp only [List.mem_singleton] at hn
        subst hn
        exact BKTree.mem_nodeWords_addAll ws n h x hx
      · intro e' he'
        simp only [List.mem_singleton] at he'
        exact Or.inl he'

/-- C3 (witness). -/
theorem find_sound_witness :
    ((20 : Int), "housa") ∈ BKTree.find (BKTree.addAll ["housa"]) "housb" 20 (-1) ∧
      (((20 : Int), "housa") = ((0 : Int), "housb") ∨
        ("housa" ∈ ["housa"] ∧ (20 : Int) = (fuzzy_ratio_distance "housa" "housb" : Int) ∧
          (20 : Int) ≤ 20)) := by
  have hmem : ((20 : Int), "housa") ∈ BKTree.find (BKTree.addAll ["housa"]) "housb" 20 (-1) := by
    have ht : BKTree.addAll ["housa"] = some (.mk "housa" .nil) := by decide
    have hd : fuzzy_ratio_distance "housa" "housb" = 20 := by decide
    rw [ht]
    simp only [BKTree.find]
    rw [if_neg (by decide : ¬ ("housb".length ≤ 3))]
    have hloop : BKTree.findLoop "housb" 20 (-1) [.mk "housa" .nil] 0
        [((0 : Int), "housb")] = [((0 : Int), "housb"), ((20 : Int), "housa")] := by
      simp [BKTree.findLoop, hd, BKTree.childrenInRange]
    rw [hloop]
    simp [pySort, pyInsert, BKTree.distLt]
  exact ⟨hmem, find_sound ["housa"] "housb" 20 (-1) ((20 : Int), "housa") hmem⟩

/-! ## Serialization (`to_dict` / `from_dict`)

`to_dict` produces the JSON-document shape
`{"item": ..., "children": {str(distance): child_doc, ...}}`; JSON
serialization turns the integer dict keys into their decimal strings,
and `from_dict` applies `int(...)` to each key on load.  `BKRep` below is
that document shape with the keys already stringified (as `List Char`);
`natToDec` is the canonical decimal rendering `str` applies to a
nonnegative integer key, and `pyParseNat` is the decimal-digit fragment
of Python's `int(...)` (the serialized keys are canonical decimals, so
signs and surrounding whitespace never occur). -/

def natToDec (n : Nat) : List Char :=
  if n < 10 then [Nat.digitChar n]
  else natToDec (n / 10) ++ [Nat.digitChar (n % 10)]
decreasing_by exact Nat.div_lt_self (by omega) (by omega)

def pyParseNat (cs : List Char) : Option Nat :=
  if cs ≠ [] ∧ cs.all (fun c => c.isDigit) then
    some (cs.foldl (fun a c => a * 10 + (c.toNat - 48)) 0)
  else none

theorem digitChar_isDigit (n : Nat) (h : n < 10) : (Nat.digitChar n).isDigit = true := by
  interval_cases n <;> decide

theorem digitChar_val (n : Nat) (h : n < 10) : (Nat.digitChar n).toNat - 48 = n := by
  interval_cases n <;> decide

theorem natToDec_ne_nil_all_digits (n : Nat) :
    natToDec n ≠ [] ∧ (natToDec n).all (fun c => c.isDigit) := by
  induction n using natToDec.induct with
  | case1 n h =>
    rw [natToDec, if_pos h]
    exact ⟨by simp, by simp [digitChar_isDigit n h]⟩
  | case2 n h ih =>
    rw [natToDec, if_neg h]
    refine ⟨by simp, ?_⟩
    simp only [List.all_append, ih.2, List.all_cons, List.all_nil, Bool.and_true, true_and]
    exact digitChar_isDigit (n % 10) (Nat.mod_lt n (by omega))

theorem natToDec_foldl (n : Nat) :
    ∀ a : Nat, (natToDec n).foldl (fun a c => a * 10 + (c.toNat - 48)) a =
      a * 10 ^ (natToDec n).length + n := by
  induction n using natToDec.induct with
  | case1 n h =>
    intro a
    rw [natToDec, if_pos h]
    simp only [List.foldl_cons, List.foldl_nil, List.length_singleton, pow_one]
    rw [digitChar_val n h]
  | case2 n h ih =>
    intro a
    rw [natToDec, if_neg h]
    rw [List.foldl_append, List.length_append, ih a]
    simp only [List.foldl_cons, List.foldl_nil, List.length_singleton]
    rw [digitChar_val (n % 10) (Nat.mod_lt n (by omega))]
    have hdm : 10 * (n / 10) + n % 10 = n := Nat.div_add_mod n 10
    ring_nf
    omega

theorem pyParseNat_natToDec (n : Nat) : pyParseNat (natToDec n) = some n := by
  rcases natToDec_ne_nil_all_digits n with ⟨hne, hall⟩
  rw [pyParseNat, if_pos ⟨hne, hall⟩, natToDec_foldl n 0]
  simp

mutual
inductive BKRep : Type where
  | mk (item : String) (children : BKRepChildren)
inductive BKRepChildren : Type where
  | nil
  | cons (key : List Char) (child : BKRep) (rest : BKRepChildren)
end

namespace BKTree

/-! `BKTree.to_dict`: `{'item': item, 'children': {distance: to_dict(child)}}`
with dict order preserved and the integer keys rendered as their decimal
strings (what `json.dump` does to int dict keys). -/
mutual
def toDict : BKNode → BKRep
  | .mk item children => .mk item (toDictChildren children)
def toDictChildren : BKChildren → BKRepChildren
  | .nil => .nil
  | .cons d c rest => .cons (natToDec d) (toDict c) (toDictChildren rest)
end

/-! `BKTree.from_dict`: rebuild `(item, children)` applying `int(...)` to
every child key; an unparseable key raises, embedded as `none`. -/
mutual
def fromDict : BKRep → Option BKNode
  | .mk item children => (fromDictChildren children).map (BKNode.mk item)
def fromDictChildren : BKRepChildren → Option BKChildren
  | .nil => some .nil
  | .cons key child rest =>
    match pyParseNat key, fromDict child, fromDictChildren rest with
    | some d, some c, some r => some (.cons d c r)
    | _, _, _ => none
end

/-- `to_dict()` at the root: `None` tree serializes to `None`. -/
def toDictTop : Option BKNode → Option BKRep
  | none => none
  | some root => some (toDict root)

/-- `from_dict` at the root: `None` loads the empty tree; a parse
failure inside raises (outer `none`). -/
def fromDictTop : Option BKRep → Option (Option BKNode)
  | none => some none
  | some r => (fromDict r).map some

mutual
theorem fromDict_toDict : ∀ t : BKNode, fromDict (toDict t) = some t
  | .mk item children => by
    simp only [toDict, fromDict, fromDictChildren_toDictChildren children]
    rfl
theorem fromDictChildren_toDictChildren :
    ∀ cs : BKChildren, fromDictChildren (toDictChildren cs) = some cs
  | .nil => rfl
  | .cons d c rest => by
    simp only [toDictChildren, fromDictChildren, pyParseNat_natToDec d,
      fromDict_toDict c, fromDictChildren_toDictChildren rest]
end

end BKTree

/-- C9: serialization round-trips.  `from_dict (to_dict T)` (including
parsing the stringified child-distance keys back to integers) recovers
exactly the tree `T` — structure, labels and key values — and therefore
the reloaded tree answers every `find(probe, τ, k)` identically to `T`. -/
theorem fromDict_toDict_roundtrip (tree : Option BKNode) :
    BKTree.fromDictTop (BKTree.toDictTop tree) = some tree
    ∧ ∀ (item : String) (tolerance k : Int),
        BKTree.find ((BKTree.fromDictTop (BKTree.toDictTop tree)).getD none)
          item tolerance k = BKTree.find tree item tolerance k := by
  have h : BKTree.fromDictTop (BKTree.toDictTop tree) = some tree := by
    match tree with
    | none => rfl
    | some root =>
      simp only [BKTree.toDictTop, BKTree.fromDictTop, BKTree.fromDict_toDict root]
      rfl
  exact ⟨h, fun item tolerance k => by rw [h]; simp⟩

/-! ## Query engine (`FuzzySearchEngine/fuzzy_search.py`)

`document_scores` is a `defaultdict(float)`, `prev_docs` a
`defaultdict(int)`, `self.word_documents` a `defaultdict(list)` mapping
word → doc-id list; all are embedded as insertion-ordered association
lists, with the defaultdict behaviour (indexing a missing key inserts
the default at the end) made explicit.  Floats are embedded as `ℚ`. -/

abbrev Scores := List (Int × ℚ)
abbrev Prev := List (Int × Int)
abbrev WD := List (String × List Int)

/-- `document_scores[doc_id]` (read; default 0.0). -/
def scoresGet : Scores → Int → ℚ
  | [], _ => 0
  | (d, v) :: rest, k => if d = k then v else scoresGet rest k

/-- `document_scores[doc_id] += x` on a `defaultdict(float)`: update in
place when present, else append the fresh key (Python dict order). -/
def scoresAdd : Scores → Int → ℚ → Scores
  | [], k, x => [(k, x)]
  | (d, v) :: rest, k, x =>
    if d = k then (d, v + x) :: rest else (d, v) :: scoresAdd rest k x

/-- `prev_docs[doc_id]` (read; default 0). -/
def prevGet : Prev → Int → Int
  | [], _ => 0
  | (d, c) :: rest, k => if d = k then c else prevGet rest k

/-- `prev_docs[doc_id] += 1` on a `defaultdict(int)`. -/
def prevIncr : Prev → Int → Prev
  | [], k => [(k, 1)]
  | (d, c) :: rest, k =>
    if d = k then (d, c + 1) :: rest else (d, c) :: prevIncr rest k

/-- `match in self.word_documents` / plain read of the posting list. -/
def wdFind : WD → String → Option (List Int)
  | [], _ => none
  | (w, ds) :: rest, k => if w = k then some ds else wdFind rest k

/-- `self.word_documents[match]` on a `defaultdict(list)`: returns the
posting list, INSERTING an empty list under the key when absent. -/
def wdGetItem (wd : WD) (w : String) : List Int × WD :=
  match wdFind wd w with
  | some ds => (ds, wd)
  | none => ([], wd ++ [(w, [])])

/-- The shape of a `score_func(document_scores, doc_id, match_score, L,
prev_docs, tfidf)` call, returning the updated mutable arguments.  Both
search methods pass `tfidf=None`, embedded as `none`. -/
abbrev ScoreFun := Scores → Int → ℚ → ℚ → Prev → Option ℚ → Scores × Prev

/-- `score_match_query_ratio_with_penalty`:
`prev_docs[doc_id] += 1; scores[doc_id] += match_score / (L * prev_docs[doc_id])`. -/
def score_match_query_ratio_with_penalty : ScoreFun :=
  fun document_scores doc_id match_score L prev_docs _tfidf =>
    let prev_docs := prevIncr prev_docs doc_id
    (scoresAdd document_scores doc_id
      (match_score / (L * (prevGet prev_docs doc_id : ℚ))), prev_docs)

/-- `score_match_query_ratio`: `scores[doc_id] += match_score / L`. -/
def score_match_query_ratio : ScoreFun :=
  fun document_scores doc_id match_score L prev_docs _tfidf =>
    (scoresAdd document_scores doc_id (match_score / L), prev_docs)

/-- `score_match_query_tfidf`:
`scores[doc_id] += match_score * tfidf / L`.  The source would raise on
`tfidf=None`; the `getD 0` branch is unreachable from the claims, which
always pass `some`. -/
def score_match_query_tfidf : ScoreFun :=
  fun document_scores doc_id match_score L prev_docs tfidf =>
    (scoresAdd document_scores doc_id (match_score * tfidf.getD 0 / L), prev_docs)

/-- `score_match_query_tfidf_with_penalty`:
`prev_docs[doc_id] += 1;
scores[doc_id] += match_score * tfidf / (L * prev_docs[doc_id])`. -/
def score_match_query_tfidf_with_penalty : ScoreFun :=
  fun document_scores doc_id match_score L prev_docs tfidf =>
    let prev_docs := prevIncr prev_docs doc_id
    (scoresAdd document_scores doc_id
      (match_score * tfidf.getD 0 / (L * (prevGet prev_docs doc_id : ℚ))), prev_docs)

/-- The four selectable scoring policies. -/
inductive Policy : Type where
  | ratioPlain
  | ratioPenalty
  | tfidfPlain
  | tfidfPenalty
  deriving DecidableEq

def applyPolicy : Policy → ScoreFun
  | .ratioPlain => score_match_query_ratio
  | .ratioPenalty => score_match_query_ratio_with_penalty
  | .tfidfPlain => score_match_query_tfidf
  | .tfidfPenalty => score_match_query_tfidf_with_penalty

/-- `for doc_id in self.word_documents[match]: score_func(...)`. -/
def scoreDocs (score_func : ScoreFun) (match_score L : ℚ) :
    List Int → Scores × Prev → Scores × Prev
  | [], sp => sp
  | doc_id :: docs, (scores, prev) =>
    scoreDocs score_func match_score L docs (score_func scores doc_id match_score L prev none)

/-- The inner `for distance, match in matches:` loop of `search_bktree`:
skip a match absent from `word_documents` (`continue`); otherwise index
the postings (present key, so no insertion) and score its documents. -/
def scoreMatchListBK (score_func : ScoreFun) (LM : ℚ) :
    List (Int × String) → Scores × WD × Prev → Scores × WD × Prev
  | [], acc => acc
  | (distance, m) :: rest, (scores, wd, prev) =>
    let match_score : ℚ := 1 / ((distance : ℚ) + 1)
    if (wdFind wd m).isSome then
      let (docs, wd') := wdGetItem wd m
      let (scores', prev') := scoreDocs score_func match_score LM docs (scores, prev)
      scoreMatchListBK score_func LM rest (scores', wd', prev')
    else scoreMatchListBK score_func LM rest (scores, wd, prev)

/-- The inner loop of `search_symspell`: identical except that the
`match not in self.word_documents` guard is MISSING, so indexing the
`defaultdict` postings with an absent candidate inserts an empty
posting list. -/
def scoreMatchListSym (score_func : ScoreFun) (LM : ℚ) :
    List (Int × String) → Scores × WD × Prev → Scores × WD × Prev
  | [], acc => acc
  | (distance, m) :: rest, (scores, wd, prev) =>
    let match_score : ℚ := 1 / ((distance : ℚ) + 1)
    let (docs, wd') := wdGetItem wd m
    let (scores', prev') := scoreDocs score_func match_score LM docs (scores, prev)
    scoreMatchListSym score_func LM rest (scores', wd', prev')

/-- The outer `for matches in results:` loop of `search_bktree`, with a
fresh `prev_docs` per match list and normalizer `L * len(matches)`. -/
def scoreResultsBK (score_func : ScoreFun) (L : Nat) :
    List (List (Int × String)) → Scores × WD → Scores × WD
  | [], acc => acc
  | matchList :: rest, (scores, wd) =>
    match scoreMatchListBK score_func ((L * matchList.length : ℕ) : ℚ) matchList
      (scores, wd, []) with
    | (scores', wd', _) => scoreResultsBK score_func L rest (scores', wd')

/-- The outer loop of `search_symspell`. -/
def scoreResultsSym (score_func : ScoreFun) (L : Nat) :
    List (List (Int × String)) → Scores × WD → Scores × WD
  | [], acc => acc
  | matchList :: rest, (scores, wd) =>
    match scoreMatchListSym score_func ((L * matchList.length : ℕ) : ℚ) matchList
      (scores, wd, []) with
    | (scores', wd', _) => scoreResultsSym score_func L rest (scores', wd')

/-- The `heapq.nlargest` key `itemgetter(1, 0)`: lexicographic on
(score, doc id). -/
def scoreKeyLt (a b : Int × ℚ) : Bool :=
  decide (a.2 < b.2 ∨ (a.2 = b.2 ∧ a.1 < b.1))

/-- `heapq.nlargest(k, items, key)`: the `k` largest by key, descending,
stable among equal keys; `[]` for `k ≤ 0`.  Equivalent to
`sorted(items, key=key, reverse=True)[:k]`, which `pySort` with the
reversed strict comparison reproduces. -/
def nlargest (k : Int) (items : List (Int × ℚ)) : List (Int × ℚ) :=
  if k ≤ 0 then [] else (pySort (fun a b => scoreKeyLt b a) items).take k.toNat

/-- The index state a loaded `FuzzySearch` instance holds: stop words,
the postings map and the BK-tree.  (The TF-IDF artifacts are not loaded
by the current `__init__` — those lines are commented out — and the
SymSpell dictionary lives behind the lookup capability below.) -/
structure SearchState where
  stop_words : List String
  word_documents : WD
  bktree : Option BKNode
  deriving DecidableEq

/-- `FuzzySearch.search_bktree(words, k, score_func, n)`: fuzzy-match
every word against the BK-tree with tolerance 20, then rank.  The
thread-pool fan-out is embedded as the deterministic per-word map (the
spec requires a deterministic iteration order for the collected
results).  Returns the top-k list and the updated state. -/
def search_bktree (st : SearchState) (words : List String) (k : Int)
    (score_func : ScoreFun) (n : Int) : List (Int × ℚ) × SearchState :=
  let L := words.length
  let results := words.map (fun word => BKTree.find st.bktree word 20 n)
  match scoreResultsBK score_func L results ([], st.word_documents) with
  | (document_scores, wd') =>
    (nlargest k document_scores, { st with word_documents := wd' })

/-- Modelled from the spec: the external SymSpell adapter is out of
scope; only its `lookup(word, verbosity, max_edit_distance) → sequence
of (distance, term)` capability surface is specified, so `search_symspell`
is parametrized by that lookup function. -/
def search_symspell (lookup : String → List (Nat × String)) (st : SearchState)
    (words : List String) (k : Int) (score_func : ScoreFun) :
    List (Int × ℚ) × SearchState :=
  let L := words.length
  let results := words.map (fun w => (lookup w).map (fun dt => ((dt.1 : Int), dt.2)))
  match scoreResultsSym score_func L results ([], st.word_documents) with
  | (document_scores, wd') =>
    (nlargest k document_scores, { st with word_documents := wd' })

/-- The whitespace class of Python's `str.split()` (ASCII part; the
queries and corpus of this engine contain no exotic Unicode spaces). -/
def pyIsSpace (c : Char) : Bool :=
  c = ' ' || c = '\t' || c = '\n' || c = '\r' || c = '\x0b' || c = '\x0c'

/-- Chunk a character list at separators chosen by `p` (keeping empty
chunks, which the callers drop). -/
def splitWhenAux (p : Char → Bool) : List Char → List Char → List (List Char)
  | [], acc => [acc.reverse]
  | c :: cs, acc =>
    if p c then acc.reverse :: splitWhenAux p cs []
    else splitWhenAux p cs (c :: acc)

/-- Python `query.split()`: split on whitespace runs, no empty tokens. -/
def pySplitWs (s : String) : List String :=
  ((splitWhenAux pyIsSpace s.data []).filter (· ≠ [])).map String.mk

/-- Code-point lexicographic order on character lists (Python's `<` on
strings). -/
def listCharLt : List Char → List Char → Bool
  | [], [] => false
  | [], _ :: _ => true
  | _ :: _, [] => false
  | a :: as, b :: bs =>
    if a.toNat < b.toNat then true
    else if a = b then listCharLt as bs
    else false

def strLt (a b : String) : Bool := listCharLt a.data b.data

/-- Remove adjacent duplicates (on a sorted list this keeps exactly the
distinct values, which is what `np.unique` returns). -/
def dedupAdjacent : List String → List String
  | [] => []
  | [x] => [x]
  | x :: y :: rest =>
    if x = y then dedupAdjacent (y :: rest) else x :: dedupAdjacent (y :: rest)

/-- `np.unique(words)`: the sorted distinct words. -/
def npUnique (ws : List String) : List String := dedupAdjacent (pySort strLt ws)

/-- `FuzzySearch.find_relevant_documents(query, k, score_func, n)`:
tokenize by whitespace, drop stop words, take the unique tokens; route
to SymSpell when more than 86 remain, else to the BK-tree.  (The Python
default `score_func=None` selects `score_match_query_ratio_with_penalty`;
the embedding takes the resolved function.) -/
def find_relevant_documents (lookup : String → List (Nat × String))
    (st : SearchState) (query : String) (k : Int) (score_func : ScoreFun)
    (n : Int) : List (Int × ℚ) × SearchState :=
  let words := npUnique ((pySplitWs query).filter (fun word => word ∉ st.stop_words))
  if words.length > 86 then search_symspell lookup st words k score_func
  else search_bktree st words k score_func n

/-- C8: backend routing.  With `W` the sorted deduplicated post-stop-word
token list of the query, `find_relevant_documents` calls the SymSpell
backend exactly when `|W| > 86` and the BK-tree backend exactly when
`|W| ≤ 86` (so 87 unique tokens route to SymSpell and 86 to the BK-tree). -/
theorem find_relevant_documents_routing (lookup : String → List (Nat × String))
    (st : SearchState) (query : String) (k : Int) (score_func : ScoreFun) (n : Int) :
    ((npUnique ((pySplitWs query).filter (fun word => word ∉ st.stop_words))).length > 86 →
      find_relevant_documents lookup st query k score_func n =
        search_symspell lookup st
          (npUnique ((pySplitWs query).filter (fun word => word ∉ st.stop_words)))
          k score_func)
    ∧ ((npUnique ((pySplitWs query).filter (fun word => word ∉ st.stop_words))).length ≤ 86 →
      find_relevant_documents lookup st query k score_func n =
        search_bktree st
          (npUnique ((pySplitWs query).filter (fun word => word ∉ st.stop_words)))
          k score_func n) := by
  constructor
  · intro h
    simp only [find_relevant_documents]
    rw [if_pos h]
  · intro h
    simp only [find_relevant_documents]
    rw [if_neg (by omega)]

-- Frame lemmas: which paths leave `word_documents` untouched.

theorem wdGetItem_present (wd : WD) (w : String) (h : (wdFind wd w).isSome) :
    (wdGetItem wd w).2 = wd := by
  unfold wdGetItem
  match hf : wdFind wd w with
  | some ds => rfl
  | none => rw [hf] at h; simp at h

theorem scoreMatchListBK_wd (score_func : ScoreFun) (LM : ℚ) :
    ∀ (lst : List (Int × String)) (scores : Scores) (wd : WD) (prev : Prev),
      (scoreMatchListBK score_func LM lst (scores, wd, prev)).2.1 = wd
  | [], scores, wd, prev => rfl
  | (distance, m) :: rest, scores, wd, prev => by
    simp only [scoreMatchListBK]
    split
    · rename_i h
      match hf : wdFind wd m with
      | none => rw [hf] at h; simp at h
      | some ds =>
        simp only [wdGetItem, hf]
        rcases hsd : scoreDocs score_func (1 / ((distance : ℚ) + 1)) LM ds (scores, prev)
          with ⟨scores2, prev2⟩
        simp only [hsd]
        exact scoreMatchListBK_wd score_func LM rest scores2 wd prev2
    · exact scoreMatchListBK_wd score_func LM rest scores wd prev

theorem scoreResultsBK_wd (score_func : ScoreFun) (L : Nat) :
    ∀ (results : List (List (Int × String))) (scores : Scores) (wd : WD),
      (scoreResultsBK score_func L results (scores, wd)).2 = wd
  | [], scores, wd => rfl
  | matchList :: rest, scores, wd => by
    simp only [scoreResultsBK]
    have hw := scoreMatchListBK_wd score_func ((L * matchList.length : ℕ) : ℚ)
      matchList scores wd []
    rcases hm : scoreMatchListBK score_func ((L * matchList.length : ℕ) : ℚ) matchList
      (scores, wd, []) with ⟨scores2, wd2, prev2⟩
    rw [hm] at hw
    simp only at hw
    subst hw
    simp only [hm]
    exact scoreResultsBK_wd score_func L rest scores2 wd2

theorem scoreMatchListSym_wd (score_func : ScoreFun) (LM : ℚ) :
    ∀ (lst : List (Int × String)) (scores : Scores) (wd : WD) (prev : Prev),
      (∀ dm ∈ lst, (wdFind wd dm.2).isSome) →
      (scoreMatchListSym score_func LM lst (scores, wd, prev)).2.1 = wd
  | [], scores, wd, prev, _ => rfl
  | (distance, m) :: rest, scores, wd, prev, hall => by
    simp only [scoreMatchListSym]
    have h : (wdFind wd m).isSome := hall (distance, m) (List.mem_cons_self _ _)
    match hf : wdFind wd m with
    | none => rw [hf] at h; simp at h
    | some ds =>
      simp only [wdGetItem, hf]
      rcases hsd : scoreDocs score_func (1 / ((distance : ℚ) + 1)) LM ds (scores, prev)
        with ⟨scores2, prev2⟩
      simp only [hsd]
      exact scoreMatchListSym_wd score_func LM rest scores2 wd prev2
        (fun dm hdm => hall dm (List.mem_cons_of_mem _ hdm))

theorem scoreResultsSym_wd (score_func : ScoreFun) (L : Nat) :
    ∀ (results : List (List (Int × String))) (scores : Scores) (wd : WD),
      (∀ lst ∈ results, ∀ dm ∈ lst, (wdFind wd dm.2).isSome) →
      (scoreResultsSym score_func L results (scores, wd)).2 = wd
  | [], scores, wd, _ => rfl
  | matchList :: rest, scores, wd, hall => by
    simp only [scoreResultsSym]
    have hw := scoreMatchListSym_wd score_func ((L * matchList.length : ℕ) : ℚ)
      matchList scores wd [] (hall matchList (List.mem_cons_self _ _))
    rcases hm : scoreMatchListSym score_func ((L * matchList.length : ℕ) : ℚ) matchList
      (scores, wd, []) with ⟨scores2, wd2, prev2⟩
    rw [hm] at hw
    simp only at hw
    subst hw
    simp only [hm]
    exact scoreResultsSym_wd score_func L rest scores2 wd2
      (fun lst hl => hall lst (List.mem_cons_of_mem _ hl))

theorem searchState_eta (st : SearchState) :
    ({ st with word_documents := st.word_documents } : SearchState) = st := rfl

-- Concrete inputs used by the routing and frame witnesses.

/-- A query of 87 distinct single-character tokens (code points 256..342,
none of them whitespace), each followed by a space. -/
def q87 : String :=
  String.mk ((List.range 87).foldr (fun i acc => Char.ofNat (256 + i) :: ' ' :: acc) [])

/-- An empty loaded index. -/
def stEmpty : SearchState := { stop_words := [], word_documents := [], bktree := none }

/-- A lookup backend that returns no candidates. -/
def noLookup : String → List (Nat × String) := fun _ => []

/-- A loaded index whose postings know only "abcd". -/
def stAbcd : SearchState := { stop_words := [], word_documents := [("abcd", [0])], bktree := none }

/-- A SymSpell backend that always returns the candidate "zzzz" — a term
present in its dictionary (`word_counts.txt`) but absent from this
index's postings map. -/
def lookupZ : String → List (Nat × String) := fun _ => [(0, "zzzz")]

/-- C8 (witness): 87 unique post-filter tokens route to the SymSpell
backend and 2 route to the BK-tree backend. -/
theorem find_relevant_documents_routing_witness :
    ((npUnique ((pySplitWs q87).filter
        (fun word => word ∉ stEmpty.stop_words))).length > 86 ∧
      find_relevant_documents noLookup stEmpty q87 20
          score_match_query_ratio_with_penalty (-1) =
        search_symspell noLookup stEmpty
          (npUnique ((pySplitWs q87).filter (fun word => word ∉ stEmpty.stop_words)))
          20 score_match_query_ratio_with_penalty)
    ∧ ((npUnique ((pySplitWs "kava caj").filter
        (fun word => word ∉ stEmpty.stop_words))).length ≤ 86 ∧
      find_relevant_documents noLookup stEmpty "kava caj" 20
          score_match_query_ratio_with_penalty (-1) =
        search_bktree stEmpty
          (npUnique ((pySplitWs "kava caj").filter (fun word => word ∉ stEmpty.stop_words)))
          20 score_match_query_ratio_with_penalty (-1)) :=
  ⟨⟨by decide,
    (find_relevant_documents_routing noLookup stEmpty q87 20
      score_match_query_ratio_with_penalty (-1)).1 (by decide)⟩,
   ⟨by decide,
    (find_relevant_documents_routing noLookup stEmpty "kava caj" 20
      score_match_query_ratio_with_penalty (-1)).2 (by decide)⟩⟩

/-- C6 (counterexample): a query that routes to the SymSpell path
mutates the postings map.  `search_symspell` indexes the
`defaultdict(list)` postings without the membership guard the BK-tree
path has, so looking up the candidate "zzzz" — in the SymSpell
dictionary but not in the postings — inserts the key "zzzz" with an
empty posting list: the key set of `word_documents` grows. -/
theorem find_relevant_documents_mutates_postings :
    (find_relevant_documents lookupZ stAbcd q87 20
        score_match_query_ratio_with_penalty (-1)).2.word_documents ≠
      stAbcd.word_documents := by decide

/-- C6 (amended): the BK-tree path leaves all index state (stop words,
postings, BK-tree) unchanged for every loaded index and query — its
`match not in word_documents` guard means the defaultdict is only ever
indexed at present keys; the SymSpell path leaves the state unchanged
only when every candidate it looks up is already in the postings map,
and otherwise inserts the missing candidates with empty posting lists. -/
theorem query_engine_frame :
    (∀ (st : SearchState) (words : List String) (k : Int) (score_func : ScoreFun)
      (n : Int), (search_bktree st words k score_func n).2 = st)
    ∧ (∀ (lookup : String → List (Nat × String)) (st : SearchState) (query : String)
      (k : Int) (score_func : ScoreFun) (n : Int),
      (npUnique ((pySplitWs query).filter (fun word => word ∉ st.stop_words))).length ≤ 86 →
      (find_relevant_documents lookup st query k score_func n).2 = st)
    ∧ (∀ (lookup : String → List (Nat × String)) (st : SearchState)
      (words : List String) (k : Int) (score_func : ScoreFun),
      (∀ w ∈ words, ∀ dt ∈ lookup w, (wdFind st.word_documents dt.2).isSome) →
      (search_symspell lookup st words k score_func).2 = st) := by
  have hbk : ∀ (st : SearchState) (words : List String) (k : Int)
      (score_func : ScoreFun) (n : Int), (search_bktree st words k score_func n).2 = st := by
    intro st words k score_func n
    simp only [search_bktree]
    have hw := scoreResultsBK_wd score_func words.length
      (words.map (fun word => BKTree.find st.bktree word 20 n)) [] st.word_documents
    rcases hm : scoreResultsBK score_func words.length
        (words.map (fun word => BKTree.find st.bktree word 20 n))
        ([], st.word_documents) with ⟨scores2, wd2⟩
    rw [hm] at hw
    simp only at hw
    subst hw
    rfl
  refine ⟨hbk, ?_, ?_⟩
  · intro lookup st query k score_func n h
    simp only [find_relevant_documents]
    rw [if_neg (by omega)]
    exact hbk st _ k score_func n
  · intro lookup st words k score_func hall
    simp only [search_symspell]
    have hw := scoreResultsSym_wd score_func words.length
      (words.map (fun w => (lookup w).map (fun dt => ((dt.1 : Int), dt.2)))) []
      st.word_documents ?_
    · rcases hm : scoreResultsSym score_func words.length
          (words.map (fun w => (lookup w).map (fun dt => ((dt.1 : Int), dt.2))))
          ([], st.word_documents) with ⟨scores2, wd2⟩
      rw [hm] at hw
      simp only at hw
      subst hw
      rw [hm]
    · intro lst hl dm hdm
      rcases List.mem_map.1 hl with ⟨w, hwmem, rfl⟩
      rcases List.mem_map.1 hdm with ⟨dt, hdt, rfl⟩
      exact hall w hwmem dt hdt

/-- C6 (witness). -/
theorem query_engine_frame_witness :
    ((npUnique ((pySplitWs "kava caj").filter
        (fun word => word ∉ stAbcd.stop_words))).length ≤ 86 ∧
      (find_relevant_documents lookupZ stAbcd "kava caj" 20
        score_match_query_ratio_with_penalty (-1)).2 = stAbcd)
    ∧ ((∀ w ∈ ["abcd"], ∀ dt ∈ noLookup w, (wdFind stAbcd.word_documents dt.2).isSome) ∧
      (search_symspell noLookup stAbcd ["abcd"] 5
        score_match_query_ratio_with_penalty).2 = stAbcd) :=
  ⟨⟨by decide,
    query_engine_frame.2.1 lookupZ stAbcd "kava caj" 20
      score_match_query_ratio_with_penalty (-1) (by decide)⟩,
   ⟨by intro w _ dt hdt; simp [noLookup] at hdt,
    query_engine_frame.2.2 noLookup stAbcd ["abcd"] 5
      score_match_query_ratio_with_penalty
      (by intro w _ dt hdt; simp [noLookup] at hdt)⟩⟩

-- Pointwise facts about the score and penalty maps.

theorem scoresGet_scoresAdd :
    ∀ (s : Scores) (k : Int) (x : ℚ), scoresGet (scoresAdd s k x) k = scoresGet s k + x
  | [], k, x => by simp [scoresAdd, scoresGet]
  | (d, v) :: rest, k, x => by
    simp only [scoresAdd]
    split
    · rename_i hdk
      simp [scoresGet, hdk]
    · rename_i hdk
      simp only [scoresGet, hdk, if_false]
      exact scoresGet_scoresAdd rest k x

theorem prevGet_prevIncr :
    ∀ (p : Prev) (k : Int), prevGet (prevIncr p k) k = prevGet p k + 1
  | [], k => by simp [prevIncr, prevGet]
  | (d, c) :: rest, k => by
    simp only [prevIncr]
    split
    · rename_i hdk
      simp [prevGet, hdk]
    · rename_i hdk
      simp only [prevGet, hdk, if_false]
      exact prevGet_prevIncr rest k

/-- C7 (counterexample): with the `ratio` policy, adding the extra fuzzy
match `(19, "wordb")` (whose postings also contain document 0) to the
single match list `[(0, "worda")]` STRICTLY DECREASES document 0's final
aggregated score: the normalizer is `L·|matches|`, so the new match
rescales the old contribution from `1/(1·1) = 1` down to `1/2`, and its
own contribution `(1/20)/2` does not make up the loss (total `21/40 < 1`).
All other inputs (postings, L, policy) are held fixed. -/
theorem score_aggregation_not_monotone :
    scoresGet (scoreResultsBK score_match_query_ratio 1
        [[((0 : Int), "worda"), ((19 : Int), "wordb")]]
        ([], [("worda", [0]), ("wordb", [0])])).1 0 <
      scoresGet (scoreResultsBK score_match_query_ratio 1
        [[((0 : Int), "worda")]]
        ([], [("worda", [0]), ("wordb", [0])])).1 0 := by
  norm_num [scoreResultsBK, scoreMatchListBK, scoreDocs, wdGetItem, wdFind,
    score_match_query_ratio, scoresAdd, scoresGet]

/-- C7 (amended): each single `score_func` call adds a nonnegative
contribution: for all four policies, with nonnegative match score,
positive normalizer, nonnegative TF-IDF weight and a nonnegative prior
penalty counter, the document's score after the call is at least its
score before.  The pipeline-level claim fails because the normalizer
`L·|matches|` itself grows with an added match (see the counterexample). -/
theorem score_policies_call_monotone (pol : Policy) (document_scores : Scores)
    (doc_id : Int) (match_score L : ℚ) (prev_docs : Prev) (t : ℚ)
    (hms : 0 ≤ match_score) (hL : 0 < L) (ht : 0 ≤ t)
    (hprev : 0 ≤ prevGet prev_docs doc_id) :
    scoresGet document_scores doc_id ≤
      scoresGet ((applyPolicy pol) document_scores doc_id match_score L prev_docs
        (some t)).1 doc_id := by
  have hpen : (0 : ℚ) < L * ((prevGet (prevIncr prev_docs doc_id) doc_id : ℤ) : ℚ) := by
    rw [prevGet_prevIncr]
    refine mul_pos hL ?_
    have h1 : (0 : ℤ) < prevGet prev_docs doc_id + 1 := by omega
    exact_mod_cast h1
  cases pol with
  | ratioPlain =>
    simp only [applyPolicy, score_match_query_ratio, scoresGet_scoresAdd]
    have : 0 ≤ match_score / L := div_nonneg hms hL.le
    linarith
  | ratioPenalty =>
    simp only [applyPolicy, score_match_query_ratio_with_penalty, scoresGet_scoresAdd]
    have : 0 ≤ match_score / (L * ((prevGet (prevIncr prev_docs doc_id) doc_id : ℤ) : ℚ)) :=
      div_nonneg hms hpen.le
    linarith
  | tfidfPlain =>
    simp only [applyPolicy, score_match_query_tfidf, scoresGet_scoresAdd, Option.getD_some]
    have : 0 ≤ match_score * t / L := div_nonneg (mul_nonneg hms ht) hL.le
    linarith
  | tfidfPenalty =>
    simp only [applyPolicy, score_match_query_tfidf_with_penalty, scoresGet_scoresAdd,
      Option.getD_some]
    have : 0 ≤ match_score * t /
        (L * ((prevGet (prevIncr prev_docs doc_id) doc_id : ℤ) : ℚ)) :=
      div_nonneg (mul_nonneg hms ht) hpen.le
    linarith

/-- C7 (witness). -/
theorem score_policies_call_monotone_witness :
    ((0 : ℚ) ≤ 1 ∧ (0 : ℚ) < 2 ∧ (0 : ℚ) ≤ 3 ∧ (0 : Int) ≤ prevGet [] 0) ∧
      scoresGet [] 0 ≤
        scoresGet ((applyPolicy .ratioPenalty) [] 0 1 2 [] (some 3)).1 0 :=
  ⟨⟨by norm_num, by norm_num, by norm_num, by decide⟩,
    score_policies_call_monotone .ratioPenalty [] 0 1 2 [] 3
      (by norm_num) (by norm_num) (by norm_num) (by decide)⟩

/-! ## Indexer (`SearchEngine/index_files.py`)

Files are presented as `(name, content)` pairs in `rglob` order.  The
per-file pipeline: lowercase, keep only the allowed alphabet, split;
parse the doc id from the filename (`int(name.split('_')[1]) - 1` — NO
try/except, so a failure is an uncaught exception that aborts the whole
run, embedded as `Except.error`); count tokens excluding stop words;
walk the counts in descending order adding new words to the BK-tree and
extending postings/counts; store the filtered token stream at
`documents[doc]`.  The subsequent `compute_tfidf` is external sklearn
code, runs after this loop, and is irrelevant to the failure behaviour
embedded here. -/

/-- The ASCII-plus-Slavic-diacritics fragment of `str.lower()` — total
on every character this engine's corpus and filenames contain. -/
def charLowerSl (c : Char) : Char :=
  if 'A' ≤ c ∧ c ≤ 'Z' then Char.ofNat (c.toNat + 32)
  else if c = 'Č' then 'č' else if c = 'Ć' then 'ć' else if c = 'Đ' then 'đ'
  else if c = 'Š' then 'š' else if c = 'Ž' then 'ž' else if c = 'É' then 'é'
  else if c = 'Ó' then 'ó' else c

def pyLower (s : String) : String := String.mk (s.data.map charLowerSl)

/-- `set("abcčćdđeéfghijklmnoópqrsštuvwxyzž ")`. -/
def slovenian_alphabet : List Char := "abcčćdđeéfghijklmnoópqrsštuvwxyzž ".data

/-- The sign-and-digits fragment of Python `int(str)` (surrounding
whitespace never occurs in the underscore-split filename fields). -/
def pyParseInt : List Char → Option Int
  | '-' :: rest => (pyParseNat rest).map (fun n => -(n : Int))
  | '+' :: rest => (pyParseNat rest).map (fun n => (n : Int))
  | cs => (pyParseNat cs).map (fun n => (n : Int))

/-- `int(str(transcription.name).split('_')[1]) - 1`: `none` models the
uncaught `IndexError`/`ValueError` on a filename that does not follow
the `<prefix>_<number>_<suffix>` contract. -/
def parseDocId (name : String) : Option Int :=
  match (splitWhenAux (fun c => c = '_') name.data []).get? 1 with
  | none => none
  | some field => (pyParseInt field).map (fun n => n - 1)

/-- `entity_counts[word] += 1` on a `defaultdict(int)`. -/
def ecIncr : List (String × Nat) → String → List (String × Nat)
  | [], w => [(w, 1)]
  | (x, c) :: rest, w =>
    if x = w then (x, c + 1) :: rest else (x, c) :: ecIncr rest w

/-- `word_documents[word].append(doc)` on a `defaultdict(list)`. -/
def wdAppend : WD → String → Int → WD
  | [], w, doc => [(w, [doc])]
  | (x, ds) :: rest, w, doc =>
    if x = w then (x, ds ++ [doc]) :: rest else (x, ds) :: wdAppend rest w doc

/-- `word_counts[word] += count` on a `defaultdict(int)`. -/
def wcAdd : List (String × Nat) → String → Nat → List (String × Nat)
  | [], w, n => [(w, n)]
  | (x, c) :: rest, w, n =>
    if x = w then (x, c + n) :: rest else (x, c) :: wcAdd rest w n

/-- `" ".join(ws)`. -/
def joinSpace : List String → List Char
  | [] => []
  | [w] => w.data
  | w :: rest => w.data ++ ' ' :: joinSpace rest

/-- Python list assignment `l[i] = v`: negative indices wrap once from
the end; out-of-range raises `IndexError` (`none`). -/
def pyListSet (l : List α) (i : Int) (v : α) : Option (List α) :=
  if 0 ≤ i ∧ i < (l.length : Int) then some (l.set i.toNat v)
  else if -(l.length : Int) ≤ i ∧ i < 0 then some (l.set (l.length - (-i).toNat) v)
  else none

structure IndexArtifacts where
  bktree : Option BKNode
  word_documents : WD
  word_counts : List (String × Nat)
  documents : List (Option String)

/-- One iteration of the `for transcription in Path(...).rglob('*.txt')`
loop of `index_files`. -/
def processFile (stop_words : List String) (arts : IndexArtifacts)
    (file : String × String) : Except String IndexArtifacts :=
  let text := pyLower file.2
  let words := pySplitWs (String.mk (text.data.filter (fun c => c ∈ slovenian_alphabet)))
  match parseDocId file.1 with
  | none => .error file.1
  | some doc =>
    let entity_counts := words.foldl
      (fun ec word => if word ∈ stop_words then ec else ecIncr ec word) []
    match (pySort (fun a b => b.2 < a.2) entity_counts).foldl
      (fun (acc : Option BKNode × WD × List (String × Nat)) wc =>
        match acc with
        | (tree, wd, counts) =>
          ((if (wdFind wd wc.1).isSome then tree else BKTree.add tree wc.1),
            wdAppend wd wc.1 doc, wcAdd counts wc.1 wc.2))
      (arts.bktree, arts.word_documents, arts.word_counts) with
    | (tree, wd, counts) =>
      match pyListSet arts.documents doc
        (some (String.mk (joinSpace (words.filter (fun w => w ∉ stop_words))))) with
      | none => .error file.1
      | some docs =>
        .ok { bktree := tree, word_documents := wd, word_counts := counts,
              documents := docs }

/-- `index_files(text_path, stop_words)`: fold the per-file pipeline over
the files; `documents = [[]] * 1012` starts as 1012 unset slots.  An
uncaught per-file exception propagates, aborting the whole run. -/
def index_files (files : List (String × String)) (stop_words : List String) :
    Except String IndexArtifacts :=
  files.foldlM (processFile stop_words)
    { bktree := none, word_documents := [], word_counts := [],
      documents := List.replicate 1012 none }

set_option maxRecDepth 20000 in
/-- C5: the claim (and the spec, twice) requires the indexer to SKIP a
file whose basename does not parse and continue; the code has no
try/except around `int(str(name).split('_')[1]) - 1`, so the exception
aborts the entire run: with a well-formed file before and after it, the
run ends in the error raised on "badname.txt" and the later file is
never indexed, while the same run without the bad file succeeds. -/
theorem index_files_aborts_on_bad_filename :
    index_files
      [("rec_1_a.txt", "ena dva dva"), ("badname.txt", "tri"),
        ("rec_2_a.txt", "dva tri")] [] = .error "badname.txt"
    ∧ parseDocId "badname.txt" = none
    ∧ (index_files [("rec_1_a.txt", "ena dva dva"), ("rec_2_a.txt", "dva tri")]
        []).isOk = true := by
  refine ⟨rfl, rfl, rfl⟩
